import Mathlib

/-!
Verification of the land-grid generation pipeline
(`server/scripts/generate-land-grid.py` and
`server/scripts/generate-land-grid-fast.py`).

The Python scripts are embedded shallowly:

* Python floats are modelled by exact rationals `ℚ`.  Python's `int(x)`
  conversion truncates toward zero; it is modelled by `qtrunc`.
* The mutable dense grid is modelled as a total function `ℤ → ℤ → Bool`;
  a Python write `grid[r][c] = 1` becomes a functional update.  All writes
  performed by the scripts use indices that are either clamped into range
  or guarded by explicit bounds checks, so the integer-indexed functional
  model is faithful (no negative-index wraparound is ever exercised).
* Rows handed to the two encoders (`save_grid_compact_json`,
  `save_grid_binary`) are modelled as `List Bool`, read with `List.getD`.
* Fallible code (Python exceptions) returns `Option`.

The module-level constants `RESOLUTION`, `HEIGHT`, `WIDTH` of the scripts
appear both as concrete definitions and as parameters (`res`, `H`, `W`) of
the embedded functions, so that properties can be stated for the
parameterised grid spec exactly as the scripts use them.
-/

/-! ## Definitions: shallow embedding of the two scripts -/

/-- Python `int(x)` applied to a (rational-modelled) float: truncation
toward zero. -/
def qtrunc (x : ℚ) : ℤ := if x < 0 then -⌊-x⌋ else ⌊x⌋

/-- `RESOLUTION = 0.02` from `generate-land-grid.py`. -/
def RESOLUTION : ℚ := 2 / 100

/-- `HEIGHT = int(180 / RESOLUTION)` from `generate-land-grid.py`. -/
def HEIGHT : ℤ := qtrunc (180 / RESOLUTION)

/-- `WIDTH = int(360 / RESOLUTION)` from `generate-land-grid.py`. -/
def WIDTH : ℤ := qtrunc (360 / RESOLUTION)

/-- `RESOLUTION = 0.05` from `generate-land-grid-fast.py`. -/
def RESOLUTION_FAST : ℚ := 5 / 100

/-- `WIDTH = int(360 / RESOLUTION)` from `generate-land-grid-fast.py`. -/
def WIDTH_FAST : ℤ := qtrunc (360 / RESOLUTION_FAST)

/-- `HEIGHT = int(180 / RESOLUTION)` from `generate-land-grid-fast.py`. -/
def HEIGHT_FAST : ℤ := qtrunc (180 / RESOLUTION_FAST)

/-- `lat_lon_to_grid(lat, lon)`: truncating conversion followed by the
clamp `max(0, min(H-1, row))` / `max(0, min(W-1, col))`. -/
def lat_lon_to_grid (res : ℚ) (H W : ℤ) (lat lon : ℚ) : ℤ × ℤ :=
  let row := qtrunc ((90 - lat) / res)
  let col := qtrunc ((lon + 180) / res)
  (max 0 (min (H - 1) row), max 0 (min (W - 1) col))

/-- `grid_to_lat_lon(row, col)`: cell-center coordinates. -/
def grid_to_lat_lon (res : ℚ) (row col : ℤ) : ℚ × ℚ :=
  (90 - ((row : ℚ) + 1/2) * res, -180 + ((col : ℚ) + 1/2) * res)

/-- The mutable dense grid, modelled as a total boolean function on integer
indices.  `true` = land. -/
abbrev Grid : Type := ℤ → ℤ → Bool

/-- A single Python write `grid[row][col] = 1`. -/
def setCell (g : Grid) (row col : ℤ) : Grid :=
  fun r c => if r = row ∧ c = col then true else g r c

/-- `range(-1, 2)`: the neighbourhood offsets used for dilation. -/
def offsets : List ℤ := [-1, 0, 1]

/-- The double loop `for dr in range(-1, 2): for dc in range(-1, 2)` with
the bounds guard `0 <= r < HEIGHT and 0 <= c < WIDTH`. -/
def markNeighborhood (H W : ℤ) (g : Grid) (row col : ℤ) : Grid :=
  offsets.foldl (fun g dr =>
    offsets.foldl (fun g dc =>
      if 0 ≤ row + dr ∧ row + dr < H ∧ 0 ≤ col + dc ∧ col + dc < W then
        setCell g (row + dr) (col + dc)
      else g) g) g

/-- The in-range Moore neighbourhood (8 neighbours plus the centre) of
`(row, col)`, as a boolean cell predicate. -/
def mooreB (H W row col r c : ℤ) : Bool :=
  decide (row - 1 ≤ r) && decide (r ≤ row + 1) && decide (col - 1 ≤ c) &&
  decide (c ≤ col + 1) && decide (0 ≤ r) && decide (r < H) && decide (0 ≤ c) &&
  decide (c < W)

/-- The per-edge test of `point_in_polygon`:
`((yi > y) != (yj > y)) and (x < (xj - xi) * (y - yi) / (yj - yi) + xi)`. -/
def edgeToggle (x y xi yi xj yj : ℚ) : Bool :=
  (decide (yi > y) != decide (yj > y)) &&
  decide (x < (xj - xi) * (y - yi) / (yj - yi) + xi)

/-- `point_in_polygon(x, y, polygon)`: ray casting over edges
`(polygon[i], polygon[j])` with `j = n - 1` initially and `j = i - 1`
afterwards. -/
def point_in_polygon (x y : ℚ) (polygon : List (ℚ × ℚ)) : Bool :=
  (List.range polygon.length).foldl (fun inside i =>
    let q := polygon.getD i (0, 0)
    let qj := polygon.getD (if i = 0 then polygon.length - 1 else i - 1) (0, 0)
    if edgeToggle x y q.1 q.2 qj.1 qj.2 then !inside else inside) false

/-- `calculate_bbox(coords)`: `(min lons, min lats, max lons, max lats)`.
Python's `min`/`max` raise on an empty sequence; the embedding returns
`none` there. -/
def calculate_bbox (coords : List (ℚ × ℚ)) : Option (ℚ × ℚ × ℚ × ℚ) :=
  match coords with
  | [] => none
  | p :: ps =>
      some ((ps.map Prod.fst).foldl min p.1, (ps.map Prod.snd).foldl min p.2,
            (ps.map Prod.fst).foldl max p.1, (ps.map Prod.snd).foldl max p.2)

/-- One entry of the `polygons` list built by `load_geojson`: an outer
ring, line or point with its precomputed bounding box
`(min_lon, min_lat, max_lon, max_lat)` and the `is_line` / `is_point`
tags. -/
structure ShapeData where
  coords : List (ℚ × ℚ)
  bbox : ℚ × ℚ × ℚ × ℚ
  is_line : Bool := false
  is_point : Bool := false
deriving DecidableEq

/-- `steps = max(2, int(dist / RESOLUTION * 2))` where
`dist = max(abs(lon2 - lon1), abs(lat2 - lat1))`; coordinate pairs are
`(lon, lat)`. -/
def lineSteps (res : ℚ) (p1 p2 : ℚ × ℚ) : ℤ :=
  max 2 (qtrunc (max |p2.1 - p1.1| |p2.2 - p1.2| / res * 2))

/-- The interpolated point `(lon1 + t·(lon2−lon1), lat1 + t·(lat2−lat1))`. -/
def interpPoint (p1 p2 : ℚ × ℚ) (t : ℚ) : ℚ × ℚ :=
  (p1.1 + t * (p2.1 - p1.1), p1.2 + t * (p2.2 - p1.2))

/-- The grid cell hit by interpolation step `k` of a segment:
`t = step / steps`, then `lat_lon_to_grid(lat, lon)`. -/
def segmentCell (res : ℚ) (H W : ℤ) (p1 p2 : ℚ × ℚ) (k : ℕ) : ℤ × ℤ :=
  let t : ℚ := (k : ℚ) / ((lineSteps res p1 p2 : ℤ) : ℚ)
  lat_lon_to_grid res H W (interpPoint p1 p2 t).2 (interpPoint p1 p2 t).1

/-- The body of the line branch for one consecutive vertex pair:
`for step in range(steps + 1)`, write the mapped cell and its guarded
Moore neighbourhood. -/
def markSegment (res : ℚ) (H W : ℤ) (g : Grid) (p1 p2 : ℚ × ℚ) : Grid :=
  (List.range ((lineSteps res p1 p2).toNat + 1)).foldl (fun g k =>
    markNeighborhood H W (setCell g (segmentCell res H W p1 p2 k).1
      (segmentCell res H W p1 p2 k).2)
      (segmentCell res H W p1 p2 k).1 (segmentCell res H W p1 p2 k).2) g

/-- The line branch of `mark_polygon_on_grid`:
`for i in range(len(coords) - 1)`, process the segment
`coords[i] → coords[i+1]`. -/
def markLine (res : ℚ) (H W : ℤ) (g : Grid) (coords : List (ℚ × ℚ)) : Grid :=
  (List.range (coords.length - 1)).foldl (fun g i =>
    markSegment res H W g (coords.getD i (0, 0)) (coords.getD (i + 1) (0, 0))) g

/-- The cell of a point feature: `lon, lat = coords[0]` then
`lat_lon_to_grid(lat, lon)`. -/
def pointCell (res : ℚ) (H W : ℤ) (coords : List (ℚ × ℚ)) : ℤ × ℤ :=
  lat_lon_to_grid res H W (coords.getD 0 (0, 0)).2 (coords.getD 0 (0, 0)).1

/-- The point branch of `mark_polygon_on_grid`: write the mapped cell,
then its guarded Moore neighbourhood. -/
def markPointData (res : ℚ) (H W : ℤ) (g : Grid) (coords : List (ℚ × ℚ)) : Grid :=
  markNeighborhood H W (setCell g (pointCell res H W coords).1
    (pointCell res H W coords).2)
    (pointCell res H W coords).1 (pointCell res H W coords).2

/-- Scan bounds of the polygon branch: rows/cols of the bbox corners,
clamped again by `max 0` / `min (H-1)`.  Returns
`(start_row, end_row, start_col, end_col)`. -/
def polygonScanBounds (res : ℚ) (H W : ℤ) (bbox : ℚ × ℚ × ℚ × ℚ) : ℤ × ℤ × ℤ × ℤ :=
  (max 0 (lat_lon_to_grid res H W bbox.2.2.2 bbox.1).1,
   min (H - 1) (lat_lon_to_grid res H W bbox.2.1 bbox.2.2.1).1,
   max 0 (lat_lon_to_grid res H W bbox.2.2.2 bbox.1).2,
   min (W - 1) (lat_lon_to_grid res H W bbox.2.1 bbox.2.2.1).2)

/-- The polygon branch of `mark_polygon_on_grid`: scan the bbox cell
rectangle; set each cell whose centre passes `point_in_polygon(lon, lat)`. -/
def markPolygonBranch (res : ℚ) (H W : ℤ) (g : Grid) (coords : List (ℚ × ℚ))
    (bbox : ℚ × ℚ × ℚ × ℚ) : Grid :=
  let sb := polygonScanBounds res H W bbox
  (List.range (sb.2.1 + 1 - sb.1).toNat).foldl (fun g (i : ℕ) =>
    (List.range (sb.2.2.2 + 1 - sb.2.2.1).toNat).foldl (fun g (j : ℕ) =>
      if point_in_polygon (grid_to_lat_lon res (sb.1 + (i : ℤ)) (sb.2.2.1 + (j : ℤ))).2
          (grid_to_lat_lon res (sb.1 + (i : ℤ)) (sb.2.2.1 + (j : ℤ))).1 coords then
        setCell g (sb.1 + (i : ℤ)) (sb.2.2.1 + (j : ℤ))
      else g) g) g

/-- `mark_polygon_on_grid(grid, polygon_data)`: dispatch on the
`is_point` / `is_line` tags, defaulting to the polygon fill. -/
def mark_polygon_on_grid (res : ℚ) (H W : ℤ) (g : Grid) (p : ShapeData) : Grid :=
  if p.is_point then markPointData res H W g p.coords
  else if p.is_line then markLine res H W g p.coords
  else markPolygonBranch res H W g p.coords p.bbox

/-- The `main()` classification loop: fold `mark_polygon_on_grid` over the
shape list, starting from a given grid (all-sea in `main()`). -/
def buildGrid (res : ℚ) (H W : ℤ) (g : Grid) (shapes : List ShapeData) : Grid :=
  shapes.foldl (fun g p => mark_polygon_on_grid res H W g p) g

/-- The cell set written by one dilation: the centre cell (written
unconditionally) plus its in-range Moore neighbourhood. -/
def dilatedB (H W : ℤ) (rc : ℤ × ℤ) (r c : ℤ) : Bool :=
  (decide (r = rc.1) && decide (c = rc.2)) || mooreB H W rc.1 rc.2 r c

/-- Cells written for one consecutive vertex pair of a line. -/
def segmentCellsB (res : ℚ) (H W : ℤ) (p1 p2 : ℚ × ℚ) (r c : ℤ) : Bool :=
  (List.range ((lineSteps res p1 p2).toNat + 1)).any fun k =>
    dilatedB H W (segmentCell res H W p1 p2 k) r c

/-- Cells written by the whole line branch. -/
def lineCellsB (res : ℚ) (H W : ℤ) (coords : List (ℚ × ℚ)) (r c : ℤ) : Bool :=
  (List.range (coords.length - 1)).any fun i =>
    segmentCellsB res H W (coords.getD i (0, 0)) (coords.getD (i + 1) (0, 0)) r c

/-- Cells written by the polygon branch: inside the clamped bbox scan
rectangle and the cell centre passes the ray-casting test. -/
def polygonCellsB (res : ℚ) (H W : ℤ) (coords : List (ℚ × ℚ))
    (bbox : ℚ × ℚ × ℚ × ℚ) (r c : ℤ) : Bool :=
  decide ((polygonScanBounds res H W bbox).1 ≤ r) &&
  decide (r ≤ (polygonScanBounds res H W bbox).2.1) &&
  decide ((polygonScanBounds res H W bbox).2.2.1 ≤ c) &&
  decide (c ≤ (polygonScanBounds res H W bbox).2.2.2) &&
  point_in_polygon (grid_to_lat_lon res r c).2 (grid_to_lat_lon res r c).1 coords

/-- The full cell set contributed by one shape, independent of the grid. -/
def shapeCellsB (res : ℚ) (H W : ℤ) (p : ShapeData) (r c : ℤ) : Bool :=
  if p.is_point then dilatedB H W (pointCell res H W p.coords) r c
  else if p.is_line then lineCellsB res H W p.coords r c
  else polygonCellsB res H W p.coords p.bbox r c

/-- The per-row RLE scan of `save_grid_compact_json` (the same state
machine appears inline in `generate_land_grid` of the fast script):
`cur = some s` models `in_land = True, start = s`; on a land→sea
transition the run `[start, col - start]` is emitted, and a run still
open at the end of the row is closed at the row boundary. -/
def rleAux : List Bool → ℕ → Option ℕ → List (ℕ × ℕ)
  | [], _, none => []
  | [], col, some s => [(s, col - s)]
  | true :: rest, col, none => rleAux rest (col + 1) (some col)
  | false :: rest, col, none => rleAux rest (col + 1) none
  | true :: rest, col, some s => rleAux rest (col + 1) (some s)
  | false :: rest, col, some s => (s, col - s) :: rleAux rest (col + 1) none

/-- RLE encoding of one dense row (scan starts at column 0, at sea). -/
def rleEncode (bs : List Bool) : List (ℕ × ℕ) := rleAux bs 0 none

/-- Replaying a pair list: column `c` is land iff some `(start, length)`
run covers it (OR-ing each run into an all-zero row). -/
def replayRLE (pairs : List (ℕ × ℕ)) (c : ℕ) : Bool :=
  pairs.any fun p => decide (p.1 ≤ c) && decide (c < p.1 + p.2)

/-- One byte of `save_grid_binary`: the `for bit in range(8)` loop
accumulating `byte |= 1 << (7 - bit)` for land cells, guarded by
`col < WIDTH`. -/
def packByte (row : List Bool) (W colStart : ℕ) : ℕ :=
  (List.range 8).foldl (fun byte bit =>
    if colStart + bit < W ∧ row.getD (colStart + bit) false = true then
      byte ||| (1 <<< (7 - bit))
    else byte) 0

/-- One row's byte group: `for col_start in range(0, WIDTH, 8)` —
`ceil(W/8)` chunks starting at columns `0, 8, 16, …`. -/
def packRow (row : List Bool) (W : ℕ) : List ℕ :=
  (List.range ((W + 7) / 8)).map fun i => packByte row W (8 * i)

/-- `save_grid_binary`: the per-row byte groups concatenated in row
order. -/
def packGrid (grid : List (List Bool)) (W : ℕ) : List ℕ :=
  (grid.map fun row => packRow row W).flatten

/-- Modelled from the spec (§3 PackedBits, §6 persisted layout): the
decoder is not part of the scripts, only the encoder is; decoding reads,
for cell `(r, c)`, bit `7 - c % 8` (MSB-first) of byte
`r·ceil(W/8) + c/8` of the stream, with width and height supplied
out-of-band. -/
def unpackBits (bytes : List ℕ) (W Hn : ℕ) : List (List Bool) :=
  (List.range Hn).map fun r =>
    (List.range W).map fun c =>
      (bytes.getD (r * ((W + 7) / 8) + c / 8) 0).testBit (7 - c % 8)

/-! ## Theorems -/

theorem qtrunc_int_add_half (n : ℤ) (h : 0 ≤ n) : qtrunc ((n : ℚ) + 1/2) = n := by
  have h0 : (0 : ℚ) ≤ (n : ℚ) + 1/2 := by
    have : (0 : ℚ) ≤ (n : ℚ) := by exact_mod_cast h
    linarith
  rw [qtrunc, if_neg (by linarith)]
  rw [Int.floor_int_add]
  norm_num

/-- C3: for every in-range cell index `(row, col)`, converting to the
cell-center coordinates with `grid_to_lat_lon` and mapping back with
`lat_lon_to_grid` returns exactly the same `(row, col)`. -/
theorem coordinate_roundtrip (res : ℚ) (H W row col : ℤ) (hres : 0 < res)
    (hr0 : 0 ≤ row) (hrH : row < H) (hc0 : 0 ≤ col) (hcW : col < W) :
    lat_lon_to_grid res H W (grid_to_lat_lon res row col).1
      (grid_to_lat_lon res row col).2 = (row, col) := by
  have hne : res ≠ 0 := ne_of_gt hres
  have hlat : (90 - (grid_to_lat_lon res row col).1) / res = (row : ℚ) + 1/2 := by
    simp only [grid_to_lat_lon]
    field_simp
    ring
  have hlon : ((grid_to_lat_lon res row col).2 + 180) / res = (col : ℚ) + 1/2 := by
    simp only [grid_to_lat_lon]
    field_simp
    ring
  simp only [lat_lon_to_grid, hlat, hlon, qtrunc_int_add_half row hr0,
    qtrunc_int_add_half col hc0, Prod.mk.injEq]
  constructor <;> omega

/-- C3 witness: the round trip at resolution 1, grid 360×180, cell (10, 20). -/
theorem coordinate_roundtrip_witness :
    lat_lon_to_grid 1 180 360 (grid_to_lat_lon 1 10 20).1
      (grid_to_lat_lon 1 10 20).2 = (10, 20) :=
  coordinate_roundtrip 1 180 360 10 20 (by norm_num) (by norm_num) (by norm_num)
    (by norm_num) (by norm_num)

/-- C4: the grid dimensions computed by `int()` truncation equal
`round(360/resolution)` × `round(180/resolution)`: 18000 × 9000 at
resolution 0.02 and 7200 × 3600 at resolution 0.05. -/
theorem grid_dimensions :
    WIDTH = 18000 ∧ HEIGHT = 9000 ∧ WIDTH_FAST = 7200 ∧ HEIGHT_FAST = 3600 ∧
    WIDTH = round ((360 : ℚ) / RESOLUTION) ∧
    HEIGHT = round ((180 : ℚ) / RESOLUTION) ∧
    WIDTH_FAST = round ((360 : ℚ) / RESOLUTION_FAST) ∧
    HEIGHT_FAST = round ((180 : ℚ) / RESOLUTION_FAST) := by
  norm_num [WIDTH, HEIGHT, WIDTH_FAST, HEIGHT_FAST, qtrunc, RESOLUTION,
    RESOLUTION_FAST, round_eq]

theorem lat_lon_to_grid_in_range (res lat lon : ℚ) (H W : ℤ) (hH : 1 ≤ H)
    (hW : 1 ≤ W) :
    0 ≤ (lat_lon_to_grid res H W lat lon).1 ∧
    (lat_lon_to_grid res H W lat lon).1 ≤ H - 1 ∧
    0 ≤ (lat_lon_to_grid res H W lat lon).2 ∧
    (lat_lon_to_grid res H W lat lon).2 ≤ W - 1 := by
  simp only [lat_lon_to_grid]
  refine ⟨?_, ?_, ?_, ?_⟩ <;> simp [le_max_iff, max_le_iff, min_le_iff] <;> omega

/-- C6: for every latitude/longitude input whatsoever (in particular out of
the nominal ranges), `lat_lon_to_grid` returns a row in `[0, H-1]` and a
column in `[0, W-1]`: clamping saturates, it never yields an out-of-range
index. -/
theorem clamp_in_range (res lat lon : ℚ) (H W : ℤ) (hH : 1 ≤ H) (hW : 1 ≤ W) :
    0 ≤ (lat_lon_to_grid res H W lat lon).1 ∧
    (lat_lon_to_grid res H W lat lon).1 ≤ H - 1 ∧
    0 ≤ (lat_lon_to_grid res H W lat lon).2 ∧
    (lat_lon_to_grid res H W lat lon).2 ≤ W - 1 :=
  lat_lon_to_grid_in_range res lat lon H W hH hW

/-- C6 witness: a far out-of-range coordinate (lat 9999, lon −9999) is
clamped into the 9000×18000 grid. -/
theorem clamp_in_range_witness :
    0 ≤ (lat_lon_to_grid RESOLUTION 9000 18000 9999 (-9999)).1 ∧
    (lat_lon_to_grid RESOLUTION 9000 18000 9999 (-9999)).1 ≤ 9000 - 1 ∧
    0 ≤ (lat_lon_to_grid RESOLUTION 9000 18000 9999 (-9999)).2 ∧
    (lat_lon_to_grid RESOLUTION 9000 18000 9999 (-9999)).2 ≤ 18000 - 1 :=
  clamp_in_range RESOLUTION 9999 (-9999) 9000 18000 (by norm_num) (by norm_num)

theorem setCell_apply (g : Grid) (a b r c : ℤ) :
    setCell g a b r c = (g r c || (decide (r = a) && decide (c = b))) := by
  simp only [setCell]
  by_cases h1 : r = a
  · by_cases h2 : c = b
    · simp [h1, h2]
    · simp [h1, h2]
  · simp [h1]

/-- A `for` loop whose body only ORs a grid-independent cell set into the
grid computes the pointwise OR with the union over the iteration space. -/
theorem foldl_or_apply {β : Type} (f : Grid → β → Grid) (p : β → ℤ → ℤ → Bool)
    (hf : ∀ g b r c, f g b r c = (g r c || p b r c)) (l : List β) (g : Grid)
    (r c : ℤ) :
    l.foldl f g r c = (g r c || l.any fun b => p b r c) := by
  induction l generalizing g with
  | nil => simp
  | cons b t ih => simp [List.foldl_cons, ih (f g b), hf, Bool.or_assoc]

set_option maxHeartbeats 1000000 in
theorem markNeighborhood_apply (H W : ℤ) (g : Grid) (row col r c : ℤ) :
    markNeighborhood H W g row col r c = (g r c || mooreB H W row col r c) := by
  have hinner : ∀ (dr : ℤ) (g : Grid) (r c : ℤ),
      (offsets.foldl (fun g dc =>
        if 0 ≤ row + dr ∧ row + dr < H ∧ 0 ≤ col + dc ∧ col + dc < W then
          setCell g (row + dr) (col + dc)
        else g) g) r c =
      (g r c || offsets.any fun dc =>
        decide (0 ≤ row + dr ∧ row + dr < H ∧ 0 ≤ col + dc ∧ col + dc < W) &&
        (decide (r = row + dr) && decide (c = col + dc))) := by
    intro dr g r c
    refine foldl_or_apply
      (fun g dc =>
        if 0 ≤ row + dr ∧ row + dr < H ∧ 0 ≤ col + dc ∧ col + dc < W then
          setCell g (row + dr) (col + dc)
        else g)
      (fun dc r c =>
        decide (0 ≤ row + dr ∧ row + dr < H ∧ 0 ≤ col + dc ∧ col + dc < W) &&
        (decide (r = row + dr) && decide (c = col + dc)))
      ?_ offsets g r c
    intro g dc r c
    by_cases h : 0 ≤ row + dr ∧ row + dr < H ∧ 0 ≤ col + dc ∧ col + dc < W
    · simp [h, setCell_apply]
    · simp [h]
  have houter : markNeighborhood H W g row col r c =
      (g r c || offsets.any fun dr => offsets.any fun dc =>
        decide (0 ≤ row + dr ∧ row + dr < H ∧ 0 ≤ col + dc ∧ col + dc < W) &&
        (decide (r = row + dr) && decide (c = col + dc))) := by
    unfold markNeighborhood
    refine foldl_or_apply
      (fun g dr =>
        offsets.foldl (fun g dc =>
          if 0 ≤ row + dr ∧ row + dr < H ∧ 0 ≤ col + dc ∧ col + dc < W then
            setCell g (row + dr) (col + dc)
          else g) g)
      (fun dr r c => offsets.any fun dc =>
        decide (0 ≤ row + dr ∧ row + dr < H ∧ 0 ≤ col + dc ∧ col + dc < W) &&
        (decide (r = row + dr) && decide (c = col + dc)))
      ?_ offsets g r c
    intro g dr r c
    exact hinner dr g r c
  rw [houter]
  congr 1
  rw [Bool.eq_iff_iff]
  simp only [offsets, List.any_cons, List.any_nil, Bool.or_eq_true, Bool.and_eq_true,
    decide_eq_true_eq, Bool.false_eq_true, or_false, mooreB]
  constructor
  · intro h
    rcases h with (h | h | h) | (h | h | h) | h | h | h <;> omega
  · intro h
    have hr3 : r = row - 1 ∨ r = row ∨ r = row + 1 := by omega
    have hc3 : c = col - 1 ∨ c = col ∨ c = col + 1 := by omega
    rcases hr3 with hr | hr | hr
    · rcases hc3 with hc | hc | hc
      · exact Or.inl (Or.inl ⟨⟨by omega, by omega, by omega, by omega⟩, by omega, by omega⟩)
      · exact Or.inl (Or.inr (Or.inl ⟨⟨by omega, by omega, by omega, by omega⟩, by omega,
          by omega⟩))
      · exact Or.inl (Or.inr (Or.inr ⟨⟨by omega, by omega, by omega, by omega⟩, by omega,
          by omega⟩))
    · rcases hc3 with hc | hc | hc
      · exact Or.inr (Or.inl (Or.inl ⟨⟨by omega, by omega, by omega, by omega⟩, by omega,
          by omega⟩))
      · exact Or.inr (Or.inl (Or.inr (Or.inl ⟨⟨by omega, by omega, by omega, by omega⟩,
          by omega, by omega⟩)))
      · exact Or.inr (Or.inl (Or.inr (Or.inr ⟨⟨by omega, by omega, by omega, by omega⟩,
          by omega, by omega⟩)))
    · rcases hc3 with hc | hc | hc
      · exact Or.inr (Or.inr (Or.inl ⟨⟨by omega, by omega, by omega, by omega⟩, by omega,
          by omega⟩))
      · exact Or.inr (Or.inr (Or.inr (Or.inl ⟨⟨by omega, by omega, by omega, by omega⟩,
          by omega, by omega⟩)))
      · exact Or.inr (Or.inr (Or.inr (Or.inr ⟨⟨by omega, by omega, by omega, by omega⟩,
          by omega, by omega⟩)))

theorem markPointData_apply (res : ℚ) (H W : ℤ) (g : Grid)
    (coords : List (ℚ × ℚ)) (r c : ℤ) :
    markPointData res H W g coords r c =
    (g r c || dilatedB H W (pointCell res H W coords) r c) := by
  rw [markPointData, markNeighborhood_apply, setCell_apply, dilatedB, Bool.or_assoc]

theorem markSegment_apply (res : ℚ) (H W : ℤ) (g : Grid) (p1 p2 : ℚ × ℚ)
    (r c : ℤ) :
    markSegment res H W g p1 p2 r c = (g r c || segmentCellsB res H W p1 p2 r c) := by
  rw [markSegment, segmentCellsB]
  refine foldl_or_apply
    (fun g k => markNeighborhood H W (setCell g (segmentCell res H W p1 p2 k).1
      (segmentCell res H W p1 p2 k).2)
      (segmentCell res H W p1 p2 k).1 (segmentCell res H W p1 p2 k).2)
    (fun k r c => dilatedB H W (segmentCell res H W p1 p2 k) r c)
    ?_ _ g r c
  intro g k r c
  simp only [markNeighborhood_apply, setCell_apply, dilatedB, Bool.or_assoc]

theorem markLine_apply (res : ℚ) (H W : ℤ) (g : Grid) (coords : List (ℚ × ℚ))
    (r c : ℤ) :
    markLine res H W g coords r c = (g r c || lineCellsB res H W coords r c) := by
  rw [markLine, lineCellsB]
  refine foldl_or_apply
    (fun g i => markSegment res H W g (coords.getD i (0, 0)) (coords.getD (i + 1) (0, 0)))
    (fun i r c => segmentCellsB res H W (coords.getD i (0, 0))
      (coords.getD (i + 1) (0, 0)) r c)
    ?_ _ g r c
  intro g i r c
  simp only [markSegment_apply]

theorem polygonScanRow_apply (res : ℚ) (rowIdx sc ec : ℤ)
    (coords : List (ℚ × ℚ)) (g : Grid) (r c : ℤ) :
    ((List.range (ec + 1 - sc).toNat).foldl (fun g (j : ℕ) =>
      if point_in_polygon (grid_to_lat_lon res rowIdx (sc + (j : ℤ))).2
          (grid_to_lat_lon res rowIdx (sc + (j : ℤ))).1 coords then
        setCell g rowIdx (sc + (j : ℤ))
      else g) g) r c =
    (g r c || (decide (r = rowIdx) && decide (sc ≤ c) && decide (c ≤ ec) &&
      point_in_polygon (grid_to_lat_lon res r c).2
        (grid_to_lat_lon res r c).1 coords)) := by
  rw [foldl_or_apply
    (fun g (j : ℕ) =>
      if point_in_polygon (grid_to_lat_lon res rowIdx (sc + (j : ℤ))).2
          (grid_to_lat_lon res rowIdx (sc + (j : ℤ))).1 coords then
        setCell g rowIdx (sc + (j : ℤ))
      else g)
    (fun (j : ℕ) r c =>
      point_in_polygon (grid_to_lat_lon res rowIdx (sc + (j : ℤ))).2
        (grid_to_lat_lon res rowIdx (sc + (j : ℤ))).1 coords &&
      (decide (r = rowIdx) && decide (c = sc + (j : ℤ))))
    ?_ _ g r c]
  · congr 1
    rw [Bool.eq_iff_iff]
    simp only [List.any_eq_true, List.mem_range, Bool.and_eq_true, decide_eq_true_eq]
    constructor
    · rintro ⟨j, hj, hpip, hr, hc⟩
      subst hr
      subst hc
      exact ⟨⟨⟨rfl, by omega⟩, by omega⟩, hpip⟩
    · rintro ⟨⟨⟨hr, h1⟩, h2⟩, hpip⟩
      subst hr
      refine ⟨(c - sc).toNat, by omega, ?_⟩
      have hc : sc + ((c - sc).toNat : ℤ) = c := by omega
      rw [hc]
      exact ⟨hpip, rfl, rfl⟩
  · intro g j r c
    by_cases hp : point_in_polygon (grid_to_lat_lon res rowIdx (sc + (j : ℤ))).2
        (grid_to_lat_lon res rowIdx (sc + (j : ℤ))).1 coords
    · simp [hp, setCell_apply]
    · simp [hp]

theorem polygonScan_apply (res : ℚ) (sr er sc ec : ℤ)
    (coords : List (ℚ × ℚ)) (g : Grid) (r c : ℤ) :
    ((List.range (er + 1 - sr).toNat).foldl (fun g (i : ℕ) =>
      (List.range (ec + 1 - sc).toNat).foldl (fun g (j : ℕ) =>
        if point_in_polygon (grid_to_lat_lon res (sr + (i : ℤ)) (sc + (j : ℤ))).2
            (grid_to_lat_lon res (sr + (i : ℤ)) (sc + (j : ℤ))).1 coords then
          setCell g (sr + (i : ℤ)) (sc + (j : ℤ))
        else g) g) g) r c =
    (g r c || (decide (sr ≤ r) && decide (r ≤ er) && decide (sc ≤ c) &&
      decide (c ≤ ec) &&
      point_in_polygon (grid_to_lat_lon res r c).2
        (grid_to_lat_lon res r c).1 coords)) := by
  rw [foldl_or_apply
    (fun g (i : ℕ) =>
      (List.range (ec + 1 - sc).toNat).foldl (fun g (j : ℕ) =>
        if point_in_polygon (grid_to_lat_lon res (sr + (i : ℤ)) (sc + (j : ℤ))).2
            (grid_to_lat_lon res (sr + (i : ℤ)) (sc + (j : ℤ))).1 coords then
          setCell g (sr + (i : ℤ)) (sc + (j : ℤ))
        else g) g)
    (fun (i : ℕ) r c =>
      decide (r = sr + (i : ℤ)) && decide (sc ≤ c) && decide (c ≤ ec) &&
      point_in_polygon (grid_to_lat_lon res r c).2
        (grid_to_lat_lon res r c).1 coords)
    ?_ _ g r c]
  · congr 1
    rw [Bool.eq_iff_iff]
    simp only [List.any_eq_true, List.mem_range, Bool.and_eq_true, decide_eq_true_eq]
    constructor
    · rintro ⟨i, hi, ⟨⟨hr, h1⟩, h2⟩, hpip⟩
      exact ⟨⟨⟨⟨by omega, by omega⟩, h1⟩, h2⟩, hpip⟩
    · rintro ⟨⟨⟨⟨h1, h2⟩, h3⟩, h4⟩, hpip⟩
      exact ⟨(r - sr).toNat, by omega, ⟨⟨by omega, h3⟩, h4⟩, hpip⟩
  · intro g i r c
    exact polygonScanRow_apply res (sr + (i : ℤ)) sc ec coords g r c

theorem markPolygonBranch_apply (res : ℚ) (H W : ℤ) (g : Grid)
    (coords : List (ℚ × ℚ)) (bbox : ℚ × ℚ × ℚ × ℚ) (r c : ℤ) :
    markPolygonBranch res H W g coords bbox r c =
    (g r c || polygonCellsB res H W coords bbox r c) := by
  simp only [markPolygonBranch, polygonCellsB]
  exact polygonScan_apply res (polygonScanBounds res H W bbox).1
    (polygonScanBounds res H W bbox).2.1 (polygonScanBounds res H W bbox).2.2.1
    (polygonScanBounds res H W bbox).2.2.2 coords g r c

theorem mark_polygon_on_grid_apply (res : ℚ) (H W : ℤ) (g : Grid) (p : ShapeData)
    (r c : ℤ) :
    mark_polygon_on_grid res H W g p r c = (g r c || shapeCellsB res H W p r c) := by
  rw [mark_polygon_on_grid, shapeCellsB]
  by_cases hpt : p.is_point = true
  · simp only [hpt, if_pos]
    exact markPointData_apply res H W g p.coords r c
  · by_cases hl : p.is_line = true
    · simp only [hpt, hl, if_neg, if_pos, Bool.false_eq_true]
      exact markLine_apply res H W g p.coords r c
    · simp only [hpt, hl, if_neg, Bool.false_eq_true]
      exact markPolygonBranch_apply res H W g p.coords p.bbox r c

theorem buildGrid_apply (res : ℚ) (H W : ℤ) (shapes : List ShapeData) (g : Grid)
    (r c : ℤ) :
    buildGrid res H W g shapes r c =
    (g r c || shapes.any fun p => shapeCellsB res H W p r c) := by
  rw [buildGrid]
  refine foldl_or_apply (fun g p => mark_polygon_on_grid res H W g p)
    (fun p r c => shapeCellsB res H W p r c) ?_ shapes g r c
  intro g p r c
  simp only [mark_polygon_on_grid_apply]

/-- C8: classification never clears a cell, and building from any
permutation of the shape list yields the identical grid. -/
theorem classification_monotone_perm (res : ℚ) (H W : ℤ) (g : Grid)
    (l1 l2 : List ShapeData) (hperm : l1.Perm l2) (r c : ℤ) :
    (∀ (p : ShapeData) (g' : Grid), g' r c = true →
      mark_polygon_on_grid res H W g' p r c = true) ∧
    buildGrid res H W g l1 r c = buildGrid res H W g l2 r c := by
  constructor
  · intro p g' h
    rw [mark_polygon_on_grid_apply, h, Bool.true_or]
  · rw [buildGrid_apply, buildGrid_apply]
    congr 1
    rw [Bool.eq_iff_iff]
    simp only [List.any_eq_true]
    constructor
    · rintro ⟨p, hp, h⟩
      exact ⟨p, hperm.mem_iff.mp hp, h⟩
    · rintro ⟨p, hp, h⟩
      exact ⟨p, hperm.mem_iff.mpr hp, h⟩

/-- C8 witness: swapping two concrete point shapes leaves the built grid
unchanged at cell (0, 0). -/
theorem classification_monotone_perm_witness :
    buildGrid 1 180 360 (fun _ _ => false)
      [⟨[(0, 0)], (0, 0, 0, 0), false, true⟩,
       ⟨[(10, 10)], (10, 10, 10, 10), false, true⟩] 0 0 =
    buildGrid 1 180 360 (fun _ _ => false)
      [⟨[(10, 10)], (10, 10, 10, 10), false, true⟩,
       ⟨[(0, 0)], (0, 0, 0, 0), false, true⟩] 0 0 :=
  (classification_monotone_perm 1 180 360 (fun _ _ => false)
    [⟨[(0, 0)], (0, 0, 0, 0), false, true⟩,
     ⟨[(10, 10)], (10, 10, 10, 10), false, true⟩]
    [⟨[(10, 10)], (10, 10, 10, 10), false, true⟩,
     ⟨[(0, 0)], (0, 0, 0, 0), false, true⟩]
    (List.Perm.swap _ _ _) 0 0).2

theorem dilatedB_in_range (H W : ℤ) (rc : ℤ × ℤ) (r c : ℤ)
    (h1 : 0 ≤ rc.1) (h2 : rc.1 ≤ H - 1) (h3 : 0 ≤ rc.2) (h4 : rc.2 ≤ W - 1)
    (h : dilatedB H W rc r c = true) : 0 ≤ r ∧ r < H ∧ 0 ≤ c ∧ c < W := by
  rw [dilatedB] at h
  simp only [Bool.or_eq_true, Bool.and_eq_true, decide_eq_true_eq, mooreB] at h
  rcases h with ⟨hr, hc⟩ | h
  · omega
  · omega

theorem pointCell_in_range (res : ℚ) (H W : ℤ) (coords : List (ℚ × ℚ))
    (hH : 1 ≤ H) (hW : 1 ≤ W) :
    0 ≤ (pointCell res H W coords).1 ∧ (pointCell res H W coords).1 ≤ H - 1 ∧
    0 ≤ (pointCell res H W coords).2 ∧ (pointCell res H W coords).2 ≤ W - 1 := by
  rw [pointCell]
  exact lat_lon_to_grid_in_range res (coords.getD 0 (0, 0)).2 (coords.getD 0 (0, 0)).1 H W hH hW

theorem segmentCell_in_range (res : ℚ) (H W : ℤ) (p1 p2 : ℚ × ℚ) (k : ℕ)
    (hH : 1 ≤ H) (hW : 1 ≤ W) :
    0 ≤ (segmentCell res H W p1 p2 k).1 ∧
    (segmentCell res H W p1 p2 k).1 ≤ H - 1 ∧
    0 ≤ (segmentCell res H W p1 p2 k).2 ∧
    (segmentCell res H W p1 p2 k).2 ≤ W - 1 := by
  simp only [segmentCell]
  exact lat_lon_to_grid_in_range res _ _ H W hH hW

/-- C10: during point and line dilation every grid write is in range: any
cell changed by `mark_polygon_on_grid` on a point or line shape satisfies
`0 ≤ r < H` and `0 ≤ c < W` (so in particular no write ever lands at a
negative index). -/
theorem dilation_writes_in_range (res : ℚ) (H W : ℤ) (g : Grid) (p : ShapeData)
    (hH : 1 ≤ H) (hW : 1 ≤ W) (hp : p.is_point = true ∨ p.is_line = true)
    (r c : ℤ) (hchange : mark_polygon_on_grid res H W g p r c ≠ g r c) :
    0 ≤ r ∧ r < H ∧ 0 ≤ c ∧ c < W := by
  rw [mark_polygon_on_grid_apply] at hchange
  have hcells : shapeCellsB res H W p r c = true := by
    cases h : shapeCellsB res H W p r c
    · rw [h, Bool.or_false] at hchange
      exact absurd rfl hchange
    · rfl
  by_cases hpt : p.is_point = true
  · rw [shapeCellsB, if_pos hpt] at hcells
    have hb := pointCell_in_range res H W p.coords hH hW
    exact dilatedB_in_range H W _ r c hb.1 hb.2.1 hb.2.2.1 hb.2.2.2 hcells
  · have hl : p.is_line = true := by
      rcases hp with h | h
      · exact absurd h hpt
      · exact h
    rw [shapeCellsB, if_neg hpt, if_pos hl, lineCellsB] at hcells
    simp only [List.any_eq_true, List.mem_range] at hcells
    obtain ⟨i, hi, hk⟩ := hcells
    rw [segmentCellsB] at hk
    simp only [List.any_eq_true, List.mem_range] at hk
    obtain ⟨k, hkm, hd⟩ := hk
    have hb := segmentCell_in_range res H W (p.coords.getD i (0, 0))
      (p.coords.getD (i + 1) (0, 0)) k hH hW
    exact dilatedB_in_range H W _ r c hb.1 hb.2.1 hb.2.2.1 hb.2.2.2 hd

/-- C10 witness: a concrete point shape changes cell (0, 0) of an all-sea
1°-resolution grid, and that cell is in range. -/
theorem dilation_writes_in_range_witness :
    0 ≤ (0 : ℤ) ∧ (0 : ℤ) < 180 ∧ 0 ≤ (0 : ℤ) ∧ (0 : ℤ) < 360 :=
  dilation_writes_in_range 1 180 360 (fun _ _ => false)
    ⟨[(-359/2, 179/2)], (-359/2, 179/2, -359/2, 179/2), false, true⟩
    (by norm_num) (by norm_num) (Or.inl rfl) 0 0
    (by
      rw [mark_polygon_on_grid_apply]
      norm_num [shapeCellsB, dilatedB, pointCell, lat_lon_to_grid, qtrunc])

/-- C5 (amended): the per-pair step count uses `int()` truncation, i.e.
`steps = max(2, trunc(2·max(|Δlon|,|Δlat|)/res))`, and the line branch
marks exactly the cells of the `steps+1` interpolated points together
with their in-range Moore neighbourhoods. -/
theorem line_dilation_spec (res : ℚ) (H W : ℤ) (g : Grid)
    (coords : List (ℚ × ℚ)) (r c : ℤ) :
    (∀ p1 p2 : ℚ × ℚ, lineSteps res p1 p2 =
      max 2 (qtrunc (2 * max |p2.1 - p1.1| |p2.2 - p1.2| / res))) ∧
    (markLine res H W g coords r c = true ↔ (g r c = true ∨
      ∃ i : ℕ, i < coords.length - 1 ∧
        ∃ k : ℕ, k < (lineSteps res (coords.getD i (0, 0))
            (coords.getD (i + 1) (0, 0))).toNat + 1 ∧
          dilatedB H W (segmentCell res H W (coords.getD i (0, 0))
            (coords.getD (i + 1) (0, 0)) k) r c = true)) := by
  constructor
  · intro p1 p2
    rw [lineSteps]
    congr 2
    ring
  · rw [markLine_apply, lineCellsB]
    simp only [Bool.or_eq_true, List.any_eq_true, List.mem_range, segmentCellsB]

/-- C5 counterexample: at resolution 0.02 with Δlon = 0.037 (and Δlat = 0)
the code computes steps = max(2, int(3.7)) = 3, while the claimed
`round` formula gives max(2, round(3.7)) = 4. -/
theorem line_steps_round_counterexample :
    lineSteps RESOLUTION (0, 0) (37/1000, 0) ≠
    max 2 (round ((2 : ℚ) * max |(37/1000 : ℚ) - 0| |(0 : ℚ) - 0| / RESOLUTION)) := by
  have h2 : |(37/1000 : ℚ)| = 37/1000 := abs_of_pos (by norm_num)
  have h3 : ((37 : ℚ)/1000) / (1/50) * 2 = 37/10 := by norm_num
  have h3r : (2 : ℚ) * (37/1000) / (1/50) = 37/10 := by norm_num
  have h4 : ⌊(37 : ℚ)/10⌋ = 3 := by
    rw [Int.floor_eq_iff]
    norm_num
  have h5 : ⌊(37 : ℚ)/10 + 1/2⌋ = 4 := by
    rw [show (37 : ℚ)/10 + 1/2 = 42/10 by norm_num, Int.floor_eq_iff]
    norm_num
  rw [lineSteps, RESOLUTION, qtrunc, round_eq]
  norm_num [h2, h3, h3r, h4, h5]

/-- C9: a degenerate horizontal edge (`yi == yj`) never toggles the inside
flag, because the first conjunct of the edge test is already false; and
whenever the first conjunct holds the divisor `yj - yi` of the edge test
is nonzero, so the division is never a division by zero. -/
theorem ray_casting_guard (x y xi yi xj yj : ℚ) :
    (yi = yj → edgeToggle x y xi yi xj yj = false) ∧
    ((decide (yi > y) != decide (yj > y)) = true → yj - yi ≠ 0) := by
  constructor
  · intro h
    subst h
    simp [edgeToggle]
  · intro h hz
    have hy : yj = yi := by linarith [sub_eq_zero.mp hz]
    rw [hy] at h
    simp at h

/-- C9 witness: the horizontal edge from (1, 2) to (3, 2) never toggles,
at query point (0, 0). -/
theorem ray_casting_guard_witness : edgeToggle 0 0 1 2 3 2 = false :=
  (ray_casting_guard 0 0 1 2 3 2).1 rfl

theorem edgeToggle_symm (x y xi yi xj yj : ℚ) :
    edgeToggle x y xi yi xj yj = edgeToggle x y xj yj xi yi := by
  have hcomm : (decide (yi > y) != decide (yj > y)) =
      (decide (yj > y) != decide (yi > y)) := by
    cases h1 : decide (yi > y) <;> cases h2 : decide (yj > y) <;> rfl
  rw [edgeToggle, edgeToggle, hcomm]
  cases h : (decide (yj > y) != decide (yi > y))
  · simp
  · have hne : yi ≠ yj := by
      intro he
      rw [he] at h
      simp at h
    have hyz : yj - yi ≠ 0 := sub_ne_zero.mpr (Ne.symm hne)
    have hyz2 : yi - yj ≠ 0 := sub_ne_zero.mpr hne
    have hth : (xj - xi) * (y - yi) / (yj - yi) + xi =
        (xi - xj) * (y - yj) / (yi - yj) + xj := by
      field_simp
      ring
    rw [hth]

/-- A two-vertex "polygon" has both edge tests equal, so the inside flag
toggles an even number of times: the ray-casting test is always false. -/
theorem point_in_polygon_pair (x y : ℚ) (p0 p1 : ℚ × ℚ) :
    point_in_polygon x y [p0, p1] = false := by
  have hred : point_in_polygon x y [p0, p1] =
      (if edgeToggle x y p1.1 p1.2 p0.1 p0.2 then
        !(if edgeToggle x y p0.1 p0.2 p1.1 p1.2 then !false else false)
      else (if edgeToggle x y p0.1 p0.2 p1.1 p1.2 then !false else false)) := rfl
  rw [hred, ← edgeToggle_symm x y p0.1 p0.2 p1.1 p1.2]
  cases h : edgeToggle x y p0.1 p0.2 p1.1 p1.2 <;> simp

/-- C7 (amended): a single-vertex line marks no cells and a polygon with
only two vertices marks no cells — both without error; but an empty ring
is not recovered from: `calculate_bbox` of an empty coordinate list fails
(Python `min()`/`max()` raise on an empty sequence), which aborts the
build before classification. -/
theorem malformed_shape_handling (res : ℚ) (H W : ℤ) (g : Grid)
    (q p0 p1 : ℚ × ℚ) (bbox : ℚ × ℚ × ℚ × ℚ) (r c : ℤ) :
    markLine res H W g [q] r c = g r c ∧
    markPolygonBranch res H W g [p0, p1] bbox r c = g r c ∧
    calculate_bbox [] = none := by
  refine ⟨?_, ?_, rfl⟩
  · rw [markLine_apply]
    simp [lineCellsB]
  · rw [markPolygonBranch_apply]
    simp [polygonCellsB, point_in_polygon_pair]

/-- C7 counterexample: an empty ring is not skipped silently — its
bounding-box computation (`min()` of an empty sequence) fails, modelled
by `none`. -/
theorem empty_ring_bbox_fails : calculate_bbox ([] : List (ℚ × ℚ)) = none := rfl

theorem replay_rleAux (bs : List Bool) : ∀ (col : ℕ) (cur : Option ℕ),
    (∀ s, cur = some s → s ≤ col) → ∀ c : ℕ,
    (replayRLE (rleAux bs col cur) c = true ↔
      ((∃ s, cur = some s ∧ s ≤ c ∧ c < col) ∨
       (∃ i, i < bs.length ∧ bs.getD i false = true ∧ c = col + i))) := by
  induction bs with
  | nil =>
    intro col cur hcur c
    cases cur with
    | none => simp [rleAux, replayRLE]
    | some s =>
      have hs := hcur s rfl
      simp only [rleAux, replayRLE, List.any_cons, List.any_nil, Bool.or_false,
        Bool.and_eq_true, decide_eq_true_eq, List.length_nil]
      constructor
      · rintro ⟨h1, h2⟩
        exact Or.inl ⟨s, rfl, h1, by (try simp only [List.length_cons] at *); omega⟩
      · rintro (⟨s1, hs1, h1, h2⟩ | ⟨i, hi, _⟩)
        · injection hs1 with he
          subst he
          exact ⟨h1, by (try simp only [List.length_cons] at *); omega⟩
        · omega
  | cons b rest ih =>
    intro col cur hcur c
    cases cur with
    | none =>
      cases b with
      | true =>
        rw [show rleAux (true :: rest) col none = rleAux rest (col + 1) (some col)
          from rfl, ih (col + 1) (some col) (by intro s h; injection h with h; omega) c]
        constructor
        · rintro (⟨s1, hs1, h1, h2⟩ | ⟨i, hi, hgi, hc⟩)
          · injection hs1 with he
            subst he
            exact Or.inr ⟨0, by (try simp only [List.length_cons] at *); omega, by simp, by (try simp only [List.length_cons] at *); omega⟩
          · exact Or.inr ⟨i + 1, by (try simp only [List.length_cons] at *); omega, by simpa using hgi, by (try simp only [List.length_cons] at *); omega⟩
        · rintro (⟨s1, hs1, _⟩ | ⟨i, hi, hgi, hc⟩)
          · cases hs1
          · cases i with
            | zero => exact Or.inl ⟨col, rfl, by (try simp only [List.length_cons] at *); omega, by (try simp only [List.length_cons] at *); omega⟩
            | succ j => exact Or.inr ⟨j, by (try simp only [List.length_cons] at *); omega, by simpa using hgi, by (try simp only [List.length_cons] at *); omega⟩
      | false =>
        rw [show rleAux (false :: rest) col none = rleAux rest (col + 1) none
          from rfl, ih (col + 1) none (by intro s h; cases h) c]
        constructor
        · rintro (⟨s1, hs1, _⟩ | ⟨i, hi, hgi, hc⟩)
          · cases hs1
          · exact Or.inr ⟨i + 1, by (try simp only [List.length_cons] at *); omega, by simpa using hgi, by (try simp only [List.length_cons] at *); omega⟩
        · rintro (⟨s1, hs1, _⟩ | ⟨i, hi, hgi, hc⟩)
          · cases hs1
          · cases i with
            | zero => simp at hgi
            | succ j => exact Or.inr ⟨j, by (try simp only [List.length_cons] at *); omega, by simpa using hgi, by (try simp only [List.length_cons] at *); omega⟩
    | some s =>
      have hs := hcur s rfl
      cases b with
      | true =>
        rw [show rleAux (true :: rest) col (some s) = rleAux rest (col + 1) (some s)
          from rfl, ih (col + 1) (some s) (by intro s1 h; injection h with h; omega) c]
        constructor
        · rintro (⟨s1, hs1, h1, h2⟩ | ⟨i, hi, hgi, hc⟩)
          · injection hs1 with he
            subst he
            by_cases hcc : c < col
            · exact Or.inl ⟨s, rfl, h1, hcc⟩
            · exact Or.inr ⟨0, by (try simp only [List.length_cons] at *); omega, by simp, by (try simp only [List.length_cons] at *); omega⟩
          · exact Or.inr ⟨i + 1, by (try simp only [List.length_cons] at *); omega, by simpa using hgi, by (try simp only [List.length_cons] at *); omega⟩
        · rintro (⟨s1, hs1, h1, h2⟩ | ⟨i, hi, hgi, hc⟩)
          · injection hs1 with he
            subst he
            exact Or.inl ⟨s, rfl, h1, by (try simp only [List.length_cons] at *); omega⟩
          · cases i with
            | zero => exact Or.inl ⟨s, rfl, by (try simp only [List.length_cons] at *); omega, by (try simp only [List.length_cons] at *); omega⟩
            | succ j => exact Or.inr ⟨j, by (try simp only [List.length_cons] at *); omega, by simpa using hgi, by (try simp only [List.length_cons] at *); omega⟩
      | false =>
        rw [show rleAux (false :: rest) col (some s) =
          (s, col - s) :: rleAux rest (col + 1) none from rfl]
        rw [show replayRLE ((s, col - s) :: rleAux rest (col + 1) none) c =
          ((decide (s ≤ c) && decide (c < s + (col - s))) ||
            replayRLE (rleAux rest (col + 1) none) c) from rfl]
        rw [Bool.or_eq_true, ih (col + 1) none (by intro s1 h; cases h) c]
        simp only [Bool.and_eq_true, decide_eq_true_eq]
        constructor
        · rintro (⟨h1, h2⟩ | (⟨s1, hs1, _⟩ | ⟨i, hi, hgi, hc⟩))
          · exact Or.inl ⟨s, rfl, h1, by (try simp only [List.length_cons] at *); omega⟩
          · cases hs1
          · exact Or.inr ⟨i + 1, by (try simp only [List.length_cons] at *); omega, by simpa using hgi, by (try simp only [List.length_cons] at *); omega⟩
        · rintro (⟨s1, hs1, h1, h2⟩ | ⟨i, hi, hgi, hc⟩)
          · injection hs1 with he
            subst he
            exact Or.inl ⟨h1, by (try simp only [List.length_cons] at *); omega⟩
          · cases i with
            | zero => simp at hgi
            | succ j => exact Or.inr (Or.inr ⟨j, by (try simp only [List.length_cons] at *); omega, by simpa using hgi, by (try simp only [List.length_cons] at *); omega⟩)

theorem rleAux_pairs (bs : List Bool) : ∀ (col : ℕ) (cur : Option ℕ),
    (∀ s, cur = some s → s < col) →
    ∀ p ∈ rleAux bs col cur,
      1 ≤ p.2 ∧ p.1 + p.2 ≤ col + bs.length ∧
      (∀ s, cur = some s → s ≤ p.1) ∧ (cur = none → col ≤ p.1) := by
  induction bs with
  | nil =>
    intro col cur hcur p hp
    cases cur with
    | none => simp [rleAux] at hp
    | some s =>
      have hs := hcur s rfl
      simp only [rleAux, List.mem_singleton] at hp
      subst hp
      refine ⟨by omega, by simp only [List.length_nil]; omega, ?_, ?_⟩
      · intro s1 h
        injection h with h
        omega
      · intro h
        cases h
  | cons b rest ih =>
    intro col cur hcur p hp
    cases cur with
    | none =>
      cases b with
      | true =>
        have h := ih (col + 1) (some col) (by intro s h; injection h with h; omega) p hp
        refine ⟨h.1, by simp only [List.length_cons]; omega, ?_, ?_⟩
        · intro s1 h1
          cases h1
        · intro _
          have := h.2.2.1 col rfl
          omega
      | false =>
        have h := ih (col + 1) none (by intro s h; cases h) p hp
        refine ⟨h.1, by simp only [List.length_cons]; omega, ?_, ?_⟩
        · intro s1 h1
          cases h1
        · intro _
          have := h.2.2.2 rfl
          omega
    | some s =>
      have hs := hcur s rfl
      cases b with
      | true =>
        have h := ih (col + 1) (some s) (by intro s1 h1; injection h1 with h1; omega) p hp
        refine ⟨h.1, by simp only [List.length_cons]; omega, ?_, ?_⟩
        · intro s1 h1
          injection h1 with h1
          exact h1 ▸ h.2.2.1 s rfl
        · intro h1
          cases h1
      | false =>
        rw [show rleAux (false :: rest) col (some s) =
          (s, col - s) :: rleAux rest (col + 1) none from rfl] at hp
        rcases List.mem_cons.mp hp with hph | hpt
        · subst hph
          refine ⟨by omega, by simp only [List.length_cons]; omega, ?_, ?_⟩
          · intro s1 h1
            injection h1 with h1
            omega
          · intro h1
            cases h1
        · have h := ih (col + 1) none (by intro s1 h1; cases h1) p hpt
          refine ⟨h.1, by simp only [List.length_cons]; omega, ?_, ?_⟩
          · intro s1 h1
            injection h1 with h1
            have := h.2.2.2 rfl
            omega
          · intro h1
            cases h1

theorem rleAux_chain (bs : List Bool) : ∀ (col : ℕ) (cur : Option ℕ),
    (∀ s, cur = some s → s < col) →
    List.Chain' (fun p q : ℕ × ℕ => p.1 + p.2 < q.1) (rleAux bs col cur) := by
  induction bs with
  | nil =>
    intro col cur hcur
    cases cur with
    | none => simp [rleAux]
    | some s => simp [rleAux]
  | cons b rest ih =>
    intro col cur hcur
    cases cur with
    | none =>
      cases b with
      | true => exact ih (col + 1) (some col) (by intro s h; injection h with h; omega)
      | false => exact ih (col + 1) none (by intro s h; cases h)
    | some s =>
      have hs := hcur s rfl
      cases b with
      | true => exact ih (col + 1) (some s) (by intro s1 h; injection h with h; omega)
      | false =>
        rw [show rleAux (false :: rest) col (some s) =
          (s, col - s) :: rleAux rest (col + 1) none from rfl]
        rw [List.chain'_cons']
        refine ⟨?_, ih (col + 1) none (by intro s1 h; cases h)⟩
        intro q hq
        have hmem : q ∈ rleAux rest (col + 1) none := List.mem_of_mem_head? hq
        have hlow := (rleAux_pairs rest (col + 1) none
          (by intro s1 h; cases h) q hmem).2.2.2 rfl
        simp only
        omega

theorem rleEncode_replay (bs : List Bool) (c : ℕ) :
    replayRLE (rleEncode bs) c = true ↔
    (c < bs.length ∧ bs.getD c false = true) := by
  rw [rleEncode, replay_rleAux bs 0 none (by intro s h; cases h) c]
  constructor
  · rintro (⟨s, hs, _⟩ | ⟨i, hi, hgi, hc⟩)
    · cases hs
    · have hci : c = i := by omega
      subst hci
      exact ⟨hi, hgi⟩
  · rintro ⟨h1, h2⟩
    exact Or.inr ⟨c, h1, h2, by omega⟩

/-- C1: replaying the RLE pairs of a row reproduces exactly its land
columns; every emitted run has length ≥ 1 and ends at or before the row
width (a run reaching the last column is closed at the boundary, no
wraparound); consecutive runs are separated by at least one sea column
(so the pairs are non-overlapping, sorted ascending by start, and
maximal); and the pair list is empty iff the row is all sea. -/
theorem rle_row_roundtrip (bs : List Bool) :
    (∀ c : ℕ, replayRLE (rleEncode bs) c = true ↔
      (c < bs.length ∧ bs.getD c false = true)) ∧
    (∀ p ∈ rleEncode bs, 1 ≤ p.2 ∧ p.1 + p.2 ≤ bs.length) ∧
    List.Chain' (fun p q : ℕ × ℕ => p.1 + p.2 < q.1) (rleEncode bs) ∧
    (rleEncode bs = [] ↔ ∀ c : ℕ, c < bs.length → bs.getD c false = false) := by
  refine ⟨rleEncode_replay bs, ?_, ?_, ?_⟩
  · intro p hp
    have h := rleAux_pairs bs 0 none (by intro s h; cases h) p hp
    exact ⟨h.1, by have := h.2.1; omega⟩
  · exact rleAux_chain bs 0 none (by intro s h; cases h)
  · constructor
    · intro hnil c hc
      cases hgd : bs.getD c false with
      | false => rfl
      | true =>
        have hrep := (rleEncode_replay bs c).mpr ⟨hc, hgd⟩
        rw [hnil] at hrep
        simp [replayRLE] at hrep
    · intro hsea
      cases he : rleEncode bs with
      | nil => rfl
      | cons p t =>
        have hp : p ∈ rleEncode bs := by
          rw [he]
          exact List.mem_cons_self p t
        have hb := rleAux_pairs bs 0 none (by intro s h; cases h) p hp
        have hrep : replayRLE (rleEncode bs) p.1 = true := by
          rw [he, replayRLE, List.any_cons]
          have h1 : (decide (p.1 ≤ p.1) && decide (p.1 < p.1 + p.2)) = true := by
            simp only [Bool.and_eq_true, decide_eq_true_eq]
            exact ⟨le_refl p.1, by have := hb.1; omega⟩
          rw [h1, Bool.true_or]
        obtain ⟨hlt, hgd⟩ := (rleEncode_replay bs p.1).mp hrep
        have hf := hsea p.1 hlt
        rw [hf] at hgd
        simp at hgd

/-- C1 witness: replay of the encoding of the row `[T, T, F, T]` is land
at column 1. -/
theorem rle_row_roundtrip_witness :
    replayRLE (rleEncode [true, true, false, true]) 1 = true :=
  ((rle_row_roundtrip [true, true, false, true]).1 1).mpr (by decide)

theorem packByte_foldl_testBit (P : ℕ → Prop) [DecidablePred P] (l : List ℕ)
    (acc t : ℕ) :
    ((l.foldl (fun byte bit =>
      if P bit then byte ||| (1 <<< (7 - bit)) else byte) acc).testBit t) =
    (acc.testBit t || l.any fun bit => decide (P bit) && decide (7 - bit = t)) := by
  induction l generalizing acc with
  | nil => simp
  | cons b rest ih =>
    rw [List.foldl_cons, ih]
    by_cases hb : P b
    · rw [if_pos hb, List.any_cons]
      have hd : decide (P b) = true := decide_eq_true hb
      rw [hd, Nat.testBit_or, Nat.one_shiftLeft, Nat.testBit_two_pow]
      cases hacc : acc.testBit t <;>
        cases hrest : rest.any fun bit => decide (P bit) && decide (7 - bit = t) <;>
        cases hbt : decide (7 - b = t) <;>
        simp [hacc, hrest, hbt]
    · have hd : decide (P b) = false := decide_eq_false hb
      rw [if_neg hb, List.any_cons, hd]
      simp

theorem packByte_testBit (row : List Bool) (W s j : ℕ) (hj : j < 8) :
    (packByte row W s).testBit (7 - j) =
    (decide (s + j < W) && row.getD (s + j) false) := by
  rw [packByte, packByte_foldl_testBit]
  simp only [Nat.zero_testBit, Bool.false_or]
  rw [Bool.eq_iff_iff]
  simp only [List.any_eq_true, List.mem_range, Bool.and_eq_true, decide_eq_true_eq]
  constructor
  · rintro ⟨bit, hbit, ⟨h1, h2⟩, heq⟩
    have hbj : bit = j := by omega
    subst hbj
    exact ⟨h1, h2⟩
  · rintro ⟨h1, h2⟩
    exact ⟨j, hj, ⟨h1, h2⟩, rfl⟩

theorem packByte_testBit_high (row : List Bool) (W s t : ℕ) (ht : 8 ≤ t) :
    (packByte row W s).testBit t = false := by
  rw [packByte, packByte_foldl_testBit]
  simp only [Nat.zero_testBit, Bool.false_or]
  rw [Bool.eq_iff_iff]
  simp only [List.any_eq_true, List.mem_range, Bool.and_eq_true, decide_eq_true_eq,
    Bool.false_eq_true, iff_false]
  rintro ⟨bit, hbit, _, heq⟩
  omega

theorem packByte_lt (row : List Bool) (W s : ℕ) : packByte row W s < 256 := by
  have hgen : ∀ (l : List ℕ) (acc : ℕ), acc < 256 →
      (l.foldl (fun byte bit =>
        if s + bit < W ∧ row.getD (s + bit) false = true then
          byte ||| (1 <<< (7 - bit))
        else byte) acc) < 256 := by
    intro l
    induction l with
    | nil => intro acc h; exact h
    | cons b rest ih =>
      intro acc h
      rw [List.foldl_cons]
      by_cases hb : s + b < W ∧ row.getD (s + b) false = true
      · refine ih _ ?_
        rw [if_pos hb]
        have h256 : (256 : ℕ) = 2 ^ 8 := by norm_num
        rw [h256]
        refine Nat.or_lt_two_pow (h256 ▸ h) ?_
        rw [Nat.one_shiftLeft]
        have h7 : 7 - b ≤ 7 := by omega
        calc 2 ^ (7 - b) ≤ 2 ^ 7 := Nat.pow_le_pow_right (by omega) h7
          _ < 2 ^ 8 := by norm_num
      · rw [if_neg hb]
        exact ih _ h
  exact hgen (List.range 8) 0 (by omega)

theorem getD_map_range {α : Type} (n i : ℕ) (f : ℕ → α) (d : α) (h : i < n) :
    ((List.range n).map f).getD i d = f i := by
  rw [List.getD_eq_getElem?_getD, List.getElem?_map, List.getElem?_range h]
  rfl

theorem packRow_length (row : List Bool) (W : ℕ) :
    (packRow row W).length = (W + 7) / 8 := by
  rw [packRow, List.length_map, List.length_range]

theorem packGrid_length (grid : List (List Bool)) (W : ℕ) :
    (packGrid grid W).length = grid.length * ((W + 7) / 8) := by
  induction grid with
  | nil => simp [packGrid]
  | cons row rest ih =>
    rw [show packGrid (row :: rest) W = packRow row W ++ packGrid rest W from rfl,
      List.length_append, packRow_length, ih, List.length_cons]
    ring

theorem packGrid_getD (grid : List (List Bool)) (W : ℕ) : ∀ (r i : ℕ),
    r < grid.length → i < (W + 7) / 8 →
    (packGrid grid W).getD (r * ((W + 7) / 8) + i) 0 =
    (packRow (grid.getD r []) W).getD i 0 := by
  induction grid with
  | nil =>
    intro r i hr _
    simp at hr
  | cons row rest ih =>
    intro r i hr hi
    rw [show packGrid (row :: rest) W = packRow row W ++ packGrid rest W from rfl]
    cases r with
    | zero =>
      rw [Nat.zero_mul, Nat.zero_add]
      rw [List.getD_append]
      · rfl
      · rw [packRow_length]
        exact hi
    | succ r1 =>
      have hlen : (packRow row W).length = (W + 7) / 8 := packRow_length row W
      have hge : (packRow row W).length ≤ (r1 + 1) * ((W + 7) / 8) + i := by
        rw [hlen, Nat.succ_mul]
        omega
      rw [List.getD_append_right _ _ _ _ hge, hlen]
      have harith : (r1 + 1) * ((W + 7) / 8) + i - (W + 7) / 8 =
          r1 * ((W + 7) / 8) + i := by
        rw [Nat.succ_mul]
        omega
      rw [harith]
      have hr1 : r1 < rest.length := by
        simp only [List.length_cons] at hr
        omega
      rw [show (row :: rest).getD (r1 + 1) [] = rest.getD r1 [] from rfl]
      exact ih r1 i hr1 hi

theorem unpack_packGrid (grid : List (List Bool)) (W : ℕ)
    (hW : ∀ row ∈ grid, row.length = W) :
    unpackBits (packGrid grid W) W grid.length = grid := by
  rw [unpackBits]
  refine List.ext_getElem (by rw [List.length_map, List.length_range]) ?_
  intro n h1 h2
  rw [List.getElem_map, List.getElem_range]
  have hrow : grid[n].length = W := hW grid[n] (List.getElem_mem h2)
  refine List.ext_getElem (by rw [List.length_map, List.length_range, hrow]) ?_
  intro c hc1 hc2
  rw [List.getElem_map, List.getElem_range]
  have hcW : c < W := by
    rw [List.length_map, List.length_range] at hc1
    exact hc1
  have hdiv : c / 8 < (W + 7) / 8 := by omega
  rw [packGrid_getD grid W n (c / 8) h2 hdiv]
  rw [packRow, getD_map_range _ _ _ _ hdiv]
  have hmod : c % 8 < 8 := Nat.mod_lt _ (by omega)
  rw [packByte_testBit _ _ _ _ hmod]
  have hc8 : 8 * (c / 8) + c % 8 = c := Nat.div_add_mod c 8
  rw [hc8]
  have hgetDrow : grid.getD n [] = grid[n] := List.getD_eq_getElem grid [] h2
  rw [hgetDrow]
  have hd : decide (c < W) = true := decide_eq_true hcW
  rw [hd, Bool.true_and]
  have hcr : c < grid[n].length := by omega
  exact List.getD_eq_getElem grid[n] false hcr

/-- C2: the packed stream has `height · ceil(W/8)` bytes, each < 256; byte
`r·ceil(W/8) + i` is byte `i` of row `r`'s group (rows never share a
byte); within a row, column `c` is bit `7 - c % 8` (MSB-first) of byte
`c / 8`, set iff the cell is land; unused low bits of a short final byte
are 0; and decoding with the known width and height reproduces the grid
bit-for-bit. -/
theorem bitpacker_roundtrip (grid : List (List Bool)) (W : ℕ)
    (hW : ∀ row ∈ grid, row.length = W) :
    (packGrid grid W).length = grid.length * ((W + 7) / 8) ∧
    (∀ b ∈ packGrid grid W, b < 256) ∧
    (∀ r i : ℕ, r < grid.length → i < (W + 7) / 8 →
      (packGrid grid W).getD (r * ((W + 7) / 8) + i) 0 =
      packByte (grid.getD r []) W (8 * i)) ∧
    (∀ r c : ℕ, r < grid.length → c < W →
      ((packGrid grid W).getD (r * ((W + 7) / 8) + c / 8) 0).testBit (7 - c % 8) =
      (grid.getD r []).getD c false) ∧
    (∀ r c : ℕ, r < grid.length → W ≤ c → c < 8 * ((W + 7) / 8) →
      ((packGrid grid W).getD (r * ((W + 7) / 8) + c / 8) 0).testBit (7 - c % 8) =
      false) ∧
    unpackBits (packGrid grid W) W grid.length = grid := by
  have hbyte : ∀ r i : ℕ, r < grid.length → i < (W + 7) / 8 →
      (packGrid grid W).getD (r * ((W + 7) / 8) + i) 0 =
      packByte (grid.getD r []) W (8 * i) := by
    intro r i hr hi
    rw [packGrid_getD grid W r i hr hi, packRow, getD_map_range _ _ _ _ hi]
  refine ⟨packGrid_length grid W, ?_, hbyte, ?_, ?_, unpack_packGrid grid W hW⟩
  · intro b hb
    rw [packGrid] at hb
    obtain ⟨bytes, hbytes, hbb⟩ := List.mem_flatten.mp hb
    obtain ⟨row, _, hrow⟩ := List.mem_map.mp hbytes
    rw [← hrow, packRow] at hbb
    obtain ⟨i, _, hib⟩ := List.mem_map.mp hbb
    rw [← hib]
    exact packByte_lt row W (8 * i)
  · intro r c hr hc
    have hdiv : c / 8 < (W + 7) / 8 := by omega
    have hmod : c % 8 < 8 := Nat.mod_lt _ (by omega)
    rw [hbyte r (c / 8) hr hdiv, packByte_testBit _ _ _ _ hmod,
      Nat.div_add_mod c 8, decide_eq_true hc, Bool.true_and]
  · intro r c hr hcW hc8
    have hdiv : c / 8 < (W + 7) / 8 := by omega
    have hmod : c % 8 < 8 := Nat.mod_lt _ (by omega)
    rw [hbyte r (c / 8) hr hdiv, packByte_testBit _ _ _ _ hmod,
      Nat.div_add_mod c 8, decide_eq_false (by omega), Bool.false_and]

/-- C2 witness: packing and decoding the 1×3 grid `[[T, F, T]]`
reproduces it. -/
theorem bitpacker_roundtrip_witness :
    unpackBits (packGrid [[true, false, true]] 3) 3 1 = [[true, false, true]] :=
  (bitpacker_roundtrip [[true, false, true]] 3 (by decide)).2.2.2.2.2
